import Mathlib

/-!
# TransitionGroup child-transition coordinator: a shallow embedding

This file embeds the `TransitionGroup` component found in
`src/packages/sampler/stories/qa-stories/CheckboxItem.js` (lines 100-414):
a port of ReactTransitionGroup that manages an ordered collection of keyed
children undergoing appear/enter/stay/leave transitions.

Modelling choices:
* A child element is a record of a string key and an opaque payload.
* The component behind a string ref is described by which of the optional
  transition hooks it exposes (`componentWillAppear`, `componentDidAppear`,
  `componentWillEnter`, ..., `componentDidLeave`); the hook table is a
  function from key to that record, fixed for the run.
* String refs hold exactly the currently rendered children
  (`this.state.children`); looking up a ref for a key that is not rendered
  yields `none`, and a subsequent property access on that `undefined` value
  throws a TypeError in JavaScript, which the embedding models by the
  whole handler returning `none`.
* Each driver entry point returns `Option (state × trace)`: `none` models a
  thrown TypeError, the trace records every begin-transition invocation the
  driver issues (one event per `performAppear`/`performEnter`/`performStay`/
  `performLeave` call).
* Hooks that take a completion callback are modelled asynchronously: when
  the hook is present the driver invocation returns with the child still in
  flight, and the completion callback firing later is modelled by applying
  the corresponding `handleDone...` function to the then-current state.
  When the hook is absent the source calls the handler directly.
-/

set_option maxRecDepth 8000

namespace Enact

/-- A keyed child element: the stable `key` plus an opaque payload
standing for the rest of the React element. -/
structure Child where
  key : String
  payload : Nat
deriving Repr, DecidableEq

/-- The optional transition hook surface of the component instance a string
ref resolves to; a `true` field means the hook is defined on the component. -/
structure Component where
  willAppear : Bool
  didAppear : Bool
  willEnter : Bool
  didEnter : Bool
  willStay : Bool
  didStay : Bool
  willLeave : Bool
  didLeave : Bool
deriving Repr, DecidableEq

/-- A component exposing no transition hooks at all. -/
def noHooks : Component :=
  { willAppear := false, didAppear := false, willEnter := false, didEnter := false
    willStay := false, didStay := false, willLeave := false, didLeave := false }

/-- Trace events: one per begin-transition invocation issued by the driver
(`performAppear`, `performEnter`, `performStay`, `performLeave`). -/
inductive Ev where
  | appear (key : String)
  | enter (key : String)
  | stay (key : String)
  | leave (key : String)
deriving Repr, DecidableEq

/-- Coordinator state: `this.state.children`, the instance fields set up in
`componentWillMount` (lines 205-210), and the current props. -/
structure TransitionGroup where
  children : List Child
  currentlyTransitioningKeys : List String
  keysToEnter : List String
  keysToLeave : List String
  keysToStay : List String
  propsChildren : List (Option Child)
  size : Nat
deriving Repr, DecidableEq

/-- `mapChildren` (lines 133-136): the non-null children of a children prop. -/
def mapChildren (children : List (Option Child)) : List Child :=
  children.filterMap id

/-- `indexOfChild` (line 112): `R.findIndex` by key equality, `-1` if absent. -/
def indexOfChild (k : String) : List Child → Int
  | [] => -1
  | c :: cs =>
    if c.key == k then 0
    else if indexOfChild k cs < 0 then -1 else indexOfChild k cs + 1

/-- `hasChild` (line 123): `R.compose(R.lte(0), indexOfChild)`. -/
def hasChild (k : String) (l : List Child) : Bool :=
  decide (0 ≤ indexOfChild k l)

/-- The scan performed by Ramda's `uniqWith` with the key-equality
predicate: walk the list keeping the first occurrence of each key. -/
def uniqWithKeyGo : List Child → List Child → List Child
  | [], acc => acc
  | c :: cs, acc =>
    if hasChild c.key acc then uniqWithKeyGo cs acc
    else uniqWithKeyGo cs (acc ++ [c])

/-- Ramda's `uniqWith (eqBy (prop "key"))`. -/
def uniqWithKey (l : List Child) : List Child :=
  uniqWithKeyGo l []

/-- `mergeChildren` (line 147): `R.unionWith(R.eqBy(R.prop('key')))`, i.e.
`uniqWith` by key over the concatenation of the two lists. -/
def mergeChildren (a b : List Child) : List Child :=
  uniqWithKey (a ++ b)

/-- The capacity-limiting step of `componentWillReceiveProps`
(lines 223-228): `drop = children.length - nextProps.size`; when positive,
`R.splitAt(drop, children)` yields `(dropped, kept)`; otherwise nothing is
dropped. Returns `(dropped, kept)`. -/
def limit (merged : List Child) (size : Nat) : List Child × List Child :=
  if size < merged.length
  then (merged.take (merged.length - size), merged.drop (merged.length - size))
  else ([], merged)

/-- `R.remove(start, 1, list)` as realised by `Array.prototype.splice`: a
negative start index counts from the end of the array, so
`R.remove(-1, 1, l)` removes the last element of a non-empty `l`. -/
def rRemove (start : Int) (count : Nat) (l : List Child) : List Child :=
  let s : Nat :=
    if start < 0 then l.length - min (-start).toNat l.length
    else min start.toNat l.length
  l.take s ++ l.drop (s + count)

/-- String-ref lookup (`this.refs[key]`): refs hold exactly the currently
rendered children, so the lookup succeeds iff the key is tracked. -/
def refs (env : String → Component) (s : TransitionGroup) (k : String) :
    Option Component :=
  if hasChild k s.children then some (env k) else none

/-- Truthiness of `this.currentlyTransitioningKeys[key]`. -/
def flagged (s : TransitionGroup) (k : String) : Bool :=
  s.currentlyTransitioningKeys.any (fun x => x == k)

/-- `this.currentlyTransitioningKeys[key] = true`. -/
def setFlag (k : String) (s : TransitionGroup) : TransitionGroup :=
  if flagged s k then s
  else { s with currentlyTransitioningKeys := s.currentlyTransitioningKeys ++ [k] }

/-- `delete this.currentlyTransitioningKeys[key]`. -/
def clearFlag (k : String) (s : TransitionGroup) : TransitionGroup :=
  { s with currentlyTransitioningKeys :=
      s.currentlyTransitioningKeys.filter (fun x => !(x == k)) }

/-- `_handleDoneLeaving` (lines 373-386): call `componentDidLeave` if
present, clear the in-flight flag, and remove the child at the index
`indexOfChild` resolves at callback time. A missing ref makes the property
access on `undefined` throw, modelled as `none`. -/
def handleDoneLeaving (env : String → Component) (k : String)
    (s : TransitionGroup) : Option (TransitionGroup × List Ev) :=
  match refs env s k with
  | none => none
  | some _c =>
    let s := clearFlag k s
    some ({ s with children := rRemove (indexOfChild k s.children) 1 s.children }, [])

/-- `performLeave` (lines 359-371): flag the key as transitioning, then
invoke `componentWillLeave` with the completion callback, or run the
completion handler immediately when the hook is absent. -/
def performLeave (env : String → Component) (k : String)
    (s : TransitionGroup) : Option (TransitionGroup × List Ev) :=
  let s := setFlag k s
  match refs env s k with
  | none => none
  | some c =>
    if c.willLeave then some (s, [Ev.leave k])
    else (handleDoneLeaving env k s).map (fun p => (p.1, Ev.leave k :: p.2))

/-- `_handleDoneAppearing` (lines 301-315): call `componentDidAppear` if
present, clear the flag, and if the key is no longer among the current
props children, immediately perform its leave transition. -/
def handleDoneAppearing (env : String → Component) (k : String)
    (s : TransitionGroup) : Option (TransitionGroup × List Ev) :=
  match refs env s k with
  | none => none
  | some _c =>
    let s := clearFlag k s
    let currentChildMapping := mapChildren s.propsChildren
    if hasChild k currentChildMapping then some (s, [])
    else performLeave env k s

/-- `performAppear` (lines 287-299). -/
def performAppear (env : String → Component) (k : String)
    (s : TransitionGroup) : Option (TransitionGroup × List Ev) :=
  let s := setFlag k s
  match refs env s k with
  | none => none
  | some c =>
    if c.willAppear then some (s, [Ev.appear k])
    else (handleDoneAppearing env k s).map (fun p => (p.1, Ev.appear k :: p.2))

/-- `_handleDoneEntering` (lines 331-338): call `componentDidEnter` if
present and clear the in-flight flag. -/
def handleDoneEntering (env : String → Component) (k : String)
    (s : TransitionGroup) : Option (TransitionGroup × List Ev) :=
  match refs env s k with
  | none => none
  | some _c => some (clearFlag k s, [])

/-- `performEnter` (lines 317-329). -/
def performEnter (env : String → Component) (k : String)
    (s : TransitionGroup) : Option (TransitionGroup × List Ev) :=
  let s := setFlag k s
  match refs env s k with
  | none => none
  | some c =>
    if c.willEnter then some (s, [Ev.enter k])
    else (handleDoneEntering env k s).map (fun p => (p.1, Ev.enter k :: p.2))

/-- `_handleDoneStaying` (lines 352-357): call `componentDidStay` if
present; the coordinator state is untouched. -/
def handleDoneStaying (env : String → Component) (k : String)
    (s : TransitionGroup) : Option (TransitionGroup × List Ev) :=
  match refs env s k with
  | none => none
  | some _c => some (s, [])

/-- `performStay` (lines 340-350): no in-flight flag is set for stays. -/
def performStay (env : String → Component) (k : String)
    (s : TransitionGroup) : Option (TransitionGroup × List Ev) :=
  match refs env s k with
  | none => none
  | some c =>
    if c.willStay then some (s, [Ev.stay k])
    else (handleDoneStaying env k s).map (fun p => (p.1, Ev.stay k :: p.2))

/-- `componentWillReceiveProps` (lines 218-267), together with React then
committing `nextProps` as `this.props`. The two `forEach` classification
loops are a partition of the non-dropped next children by the enter
condition `!hasPrev || currentlyTransitioningKeys[key]`, plus a filter of
the previous children by `!isDropped && !hasNext`; the flags of dropped
keys are deleted at the end. -/
def componentWillReceiveProps (nextChildren : List (Option Child))
    (nextSize : Nat) (s : TransitionGroup) : TransitionGroup :=
  let nextChildMapping := mapChildren nextChildren
  let prevChildMapping := s.children
  let merged := mergeChildren prevChildMapping nextChildMapping
  let dk := limit merged nextSize
  let part := (nextChildMapping.filter (fun c => !(hasChild c.key dk.1))).partition
      (fun c => !(hasChild c.key prevChildMapping) || flagged s c.key)
  let leaving := prevChildMapping.filter
      (fun c => !(hasChild c.key dk.1) && !(hasChild c.key nextChildMapping))
  { s with
    children := dk.2
    propsChildren := nextChildren
    size := nextSize
    keysToEnter := s.keysToEnter ++ part.1.map Child.key
    keysToStay := s.keysToStay ++ part.2.map Child.key
    keysToLeave := s.keysToLeave ++ leaving.map Child.key
    currentlyTransitioningKeys :=
      s.currentlyTransitioningKeys.filter (fun k => !(hasChild k dk.1)) }

/-- Run one driver step per key, in order, threading the state and
concatenating the traces; a thrown TypeError (`none`) aborts the run. -/
def runKeys
    (step : String → TransitionGroup → Option (TransitionGroup × List Ev)) :
    List String → TransitionGroup → Option (TransitionGroup × List Ev)
  | [], s => some (s, [])
  | k :: ks, s =>
    match step k s with
    | none => none
    | some (s', tr) =>
      match runKeys step ks s' with
      | none => none
      | some (s'', tr') => some (s'', tr ++ tr')

/-- `componentDidUpdate` (lines 269-285): drain and process the enter queue,
then the stay queue, then the leave queue. -/
def componentDidUpdate (env : String → Component) (s : TransitionGroup) :
    Option (TransitionGroup × List Ev) :=
  let enters := s.keysToEnter
  let s1 := { s with keysToEnter := ([] : List String) }
  match runKeys (performEnter env) enters s1 with
  | none => none
  | some (s2, tr1) =>
    let stays := s2.keysToStay
    let s3 := { s2 with keysToStay := ([] : List String) }
    match runKeys (performStay env) stays s3 with
    | none => none
    | some (s4, tr2) =>
      let leaves := s4.keysToLeave
      let s5 := { s4 with keysToLeave := ([] : List String) }
      match runKeys (performLeave env) leaves s5 with
      | none => none
      | some (s6, tr3) => some (s6, tr1 ++ tr2 ++ tr3)

/-- The constructor (lines 198-203) plus `componentWillMount` (lines
205-210): the initial tracked collection is the mapped children prop,
with no capacity limiting, empty queues and no in-flight flags. -/
def initialState (propsChildren : List (Option Child)) (size : Nat) :
    TransitionGroup :=
  { children := mapChildren propsChildren
    currentlyTransitioningKeys := []
    keysToEnter := []
    keysToLeave := []
    keysToStay := []
    propsChildren := propsChildren
    size := size }

/-- `componentDidMount` (lines 212-216): perform the appear transition for
every initially tracked child, in order. -/
def componentDidMount (env : String → Component) (s : TransitionGroup) :
    Option (TransitionGroup × List Ev) :=
  runKeys (performAppear env) (s.children.map Child.key) s

/-- One full update cycle: new props received, state committed, then
`componentDidUpdate` drains the transition queues. -/
def updateCycle (env : String → Component) (nextChildren : List (Option Child))
    (nextSize : Nat) (s : TransitionGroup) : Option (TransitionGroup × List Ev) :=
  componentDidUpdate env (componentWillReceiveProps nextChildren nextSize s)

/-- The tracked collection has no duplicate keys. -/
def nodupKeys (l : List Child) : Prop :=
  (l.map Child.key).Nodup

instance (l : List Child) : Decidable (nodupKeys l) := by
  unfold nodupKeys
  infer_instance

/-- The three transition queues of two states agree. -/
def sameQueues (s t : TransitionGroup) : Prop :=
  t.keysToEnter = s.keysToEnter ∧ t.keysToStay = s.keysToStay
    ∧ t.keysToLeave = s.keysToLeave

/-! ## Concrete children, hook tables and states used in witnesses
and counterexamples -/

def chA : Child := { key := "A", payload := 0 }

def chB : Child := { key := "B", payload := 1 }

def chC : Child := { key := "C", payload := 2 }

def chB7 : Child := { key := "B", payload := 7 }

def chD : Child := { key := "D", payload := 3 }

/-- Children whose only hook is an asynchronous `componentWillLeave`. -/
def envWL : String → Component := fun _ => { noHooks with willLeave := true }

/-- Children whose only hook is an asynchronous `componentWillEnter`. -/
def envWEnt : String → Component := fun _ => { noHooks with willEnter := true }

/-- Children with no hooks at all. -/
def envNone : String → Component := fun _ => noHooks

/-- A tracked, flagged child A: the state after an update entered A with an
asynchronous enter hook still in flight. -/
def sAFlagged : TransitionGroup :=
  { children := [chA], currentlyTransitioningKeys := ["A"]
    keysToEnter := [], keysToLeave := [], keysToStay := []
    propsChildren := [some chA], size := 2 }

/-- `sAFlagged` after its in-flight flag for A is cleared. -/
def sAClear : TransitionGroup :=
  { children := [chA], currentlyTransitioningKeys := []
    keysToEnter := [], keysToLeave := [], keysToStay := []
    propsChildren := [some chA], size := 2 }

/-- A tracked child A whose appear transition is in flight while the props
children no longer contain A. -/
def sAOrphan : TransitionGroup :=
  { children := [chA], currentlyTransitioningKeys := ["A"]
    keysToEnter := [], keysToLeave := [], keysToStay := []
    propsChildren := [], size := 2 }

/-- State reached after [A, B] tracked, then B alone desired: A's leave is
in flight with an asynchronous leave hook. -/
def sLeaveInFlight : TransitionGroup :=
  { children := [chA, chB], currentlyTransitioningKeys := ["A"]
    keysToEnter := [], keysToLeave := [], keysToStay := []
    propsChildren := [some chB], size := 2 }

/-- `sLeaveInFlight` after A's leave completion fired once: A removed. -/
def sLeaveDone : TransitionGroup :=
  { children := [chB], currentlyTransitioningKeys := []
    keysToEnter := [], keysToLeave := [], keysToStay := []
    propsChildren := [some chB], size := 2 }

/-- State after [] tracked with size 1, then A desired: A entering with an
asynchronous enter hook in flight. -/
def sDropPre : TransitionGroup :=
  { children := [chA], currentlyTransitioningKeys := ["A"]
    keysToEnter := [], keysToLeave := [], keysToStay := []
    propsChildren := [some chA], size := 1 }

/-- `sDropPre` after [A, B] is desired with size 1: A is force-dropped
(flag cleared, no longer tracked) and B is entering. -/
def sDropPost : TransitionGroup :=
  { children := [chB], currentlyTransitioningKeys := ["B"]
    keysToEnter := [], keysToLeave := [], keysToStay := []
    propsChildren := [some chA, some chB], size := 1 }

/-- A state whose three queues are all non-empty, ready for
`componentDidUpdate`. -/
def sQueued : TransitionGroup :=
  { children := [chA, chB, chC], currentlyTransitioningKeys := []
    keysToEnter := ["A"], keysToLeave := ["C"], keysToStay := ["B"]
    propsChildren := [some chA, some chB], size := 2 }

/-- `sQueued` after `componentDidUpdate` with hook-less children: C left
and was removed synchronously. -/
def sQueuedDone : TransitionGroup :=
  { children := [chA, chB], currentlyTransitioningKeys := []
    keysToEnter := [], keysToLeave := [], keysToStay := []
    propsChildren := [some chA, some chB], size := 2 }

/-! ## Basic lemmas about the pure helpers -/

theorem hasChild_nil (k : String) : hasChild k [] = false := rfl

theorem indexOfChild_cons (k : String) (c : Child) (cs : List Child) :
    indexOfChild k (c :: cs)
      = if c.key == k then 0
        else if indexOfChild k cs < 0 then -1 else indexOfChild k cs + 1 := rfl

theorem hasChild_cons (k : String) (c : Child) (cs : List Child) :
    hasChild k (c :: cs) = ((c.key == k) || hasChild k cs) := by
  unfold hasChild
  rw [indexOfChild_cons]
  split
  case isTrue h => simp [h]
  case isFalse h =>
    have h' : (c.key == k) = false := by
      cases hx : c.key == k
      · rfl
      · exact absurd hx h
    rw [h', Bool.false_or, decide_eq_decide]
    split <;> omega

theorem hasChild_eq_any (k : String) (l : List Child) :
    hasChild k l = l.any (fun c => c.key == k) := by
  induction l with
  | nil => rfl
  | cons c cs ih => rw [hasChild_cons, List.any_cons, ih]

theorem hasChild_iff_mem (k : String) (l : List Child) :
    hasChild k l = true ↔ k ∈ l.map Child.key := by
  rw [hasChild_eq_any, List.any_eq_true]
  constructor
  · rintro ⟨c, hc, he⟩
    exact List.mem_map.mpr ⟨c, hc, beq_iff_eq.mp he⟩
  · intro h
    obtain ⟨c, hc, he⟩ := List.mem_map.mp h
    exact ⟨c, hc, beq_iff_eq.mpr he⟩

theorem hasChild_append (k : String) (l₁ l₂ : List Child) :
    hasChild k (l₁ ++ l₂) = (hasChild k l₁ || hasChild k l₂) := by
  rw [hasChild_eq_any, hasChild_eq_any, hasChild_eq_any, List.any_append]

theorem hasChild_of_mem {k : String} {c : Child} {l : List Child}
    (hc : c ∈ l) (hk : c.key = k) : hasChild k l = true :=
  (hasChild_iff_mem k l).mpr (List.mem_map.mpr ⟨c, hc, hk⟩)

theorem uniqWithKeyGo_nil (acc : List Child) : uniqWithKeyGo [] acc = acc := rfl

theorem uniqWithKeyGo_cons (c : Child) (cs acc : List Child) :
    uniqWithKeyGo (c :: cs) acc
      = if hasChild c.key acc then uniqWithKeyGo cs acc
        else uniqWithKeyGo cs (acc ++ [c]) := rfl

/-- The uniqWith scan over an appended list runs the scans in sequence. -/
theorem uniqWithKeyGo_append (xs ys acc : List Child) :
    uniqWithKeyGo (xs ++ ys) acc = uniqWithKeyGo ys (uniqWithKeyGo xs acc) := by
  induction xs generalizing acc with
  | nil => rfl
  | cons c cs ih =>
    rw [List.cons_append, uniqWithKeyGo_cons, uniqWithKeyGo_cons]
    split <;> exact ih _

/-- Characterisation of the uniqWith scan when both the accumulator and the
remaining input are duplicate-free: it appends exactly the input children
whose keys are not already accumulated. -/
theorem uniqWithKeyGo_spec (b acc : List Child)
    (hacc : nodupKeys acc) (hb : nodupKeys b) :
    uniqWithKeyGo b acc = acc ++ b.filter (fun d => !(hasChild d.key acc)) := by
  induction b generalizing acc with
  | nil => simp [uniqWithKeyGo_nil]
  | cons c cs ih =>
    have hbc := List.nodup_cons.mp hb
    have hcs : nodupKeys cs := hbc.2
    have hckey : c.key ∉ cs.map Child.key := hbc.1
    rw [uniqWithKeyGo_cons]
    cases hc : hasChild c.key acc with
    | true =>
      rw [if_pos rfl, ih acc hacc hcs]
      simp [List.filter_cons, hc]
    | false =>
      rw [if_neg (by simp)]
      have hnacc : nodupKeys (acc ++ [c]) := by
        unfold nodupKeys at hacc ⊢
        rw [List.map_append, List.nodup_append]
        refine ⟨hacc, List.nodup_singleton _, ?_⟩
        intro a ha hb'
        simp only [List.map_cons, List.map_nil, List.mem_singleton] at hb'
        subst hb'
        have := (hasChild_iff_mem c.key acc).mpr ha
        rw [hc] at this
        exact Bool.false_ne_true this
      rw [ih (acc ++ [c]) hnacc hcs]
      have hfilter : cs.filter (fun d => !(hasChild d.key (acc ++ [c])))
          = cs.filter (fun d => !(hasChild d.key acc)) := by
        apply List.filter_congr
        intro d hd
        have hdk : (c.key == d.key) = false := by
          apply beq_false_of_ne
          intro he
          exact hckey (he ▸ List.mem_map.mpr ⟨d, hd, rfl⟩)
        have hone : hasChild d.key [c] = false := by
          rw [hasChild_cons, hasChild_nil, hdk, Bool.or_false]
        rw [hasChild_append, hone, Bool.or_false]
      rw [hfilter, List.append_assoc, List.singleton_append]
      simp [List.filter_cons, hc]

/-- mergeChildren on duplicate-free inputs: the tracked children first (with
their original payloads), then the desired children whose keys are new. -/
theorem mergeChildren_eq (a b : List Child)
    (ha : nodupKeys a) (hb : nodupKeys b) :
    mergeChildren a b = a ++ b.filter (fun d => !(hasChild d.key a)) := by
  unfold mergeChildren uniqWithKey
  rw [uniqWithKeyGo_append]
  have h1 : uniqWithKeyGo a [] = a := by
    rw [uniqWithKeyGo_spec a [] (by simp [nodupKeys]) ha]
    simp [hasChild_nil]
  rw [h1, uniqWithKeyGo_spec b a ha hb]

/-- The merge of duplicate-free inputs is duplicate-free. -/
theorem mergeChildren_nodup (a b : List Child)
    (ha : nodupKeys a) (hb : nodupKeys b) :
    nodupKeys (mergeChildren a b) := by
  rw [mergeChildren_eq a b ha hb]
  unfold nodupKeys
  rw [List.map_append, List.nodup_append]
  refine ⟨ha, ?_, ?_⟩
  · exact hb.sublist ((List.filter_sublist b).map Child.key)
  · intro x hxa hxb
    obtain ⟨d, hd, hdk⟩ := List.mem_map.mp hxb
    obtain ⟨hdb, hcond⟩ := List.mem_filter.mp hd
    rw [hdk] at hcond
    have hx : hasChild x a = true := (hasChild_iff_mem x a).mpr hxa
    rw [hx] at hcond
    exact Bool.false_ne_true hcond

/-- The kept part of the limiter never exceeds the capacity. -/
theorem limit_kept_length (merged : List Child) (size : Nat) :
    (limit merged size).2.length ≤ size := by
  unfold limit
  split
  · simp only [List.length_drop]
    omega
  · simp only []
    omega

theorem limit_dropped_length (merged : List Child) (size : Nat)
    (h : size < merged.length) :
    (limit merged size).1.length = merged.length - size := by
  unfold limit
  rw [if_pos h]
  simp

/-! ## Lemmas about removal by resolved index -/

theorem rRemove_zero (c : Child) (cs : List Child) :
    rRemove 0 1 (c :: cs) = cs := by
  simp [rRemove]

theorem rRemove_succ (i : Int) (hi : 0 ≤ i) (c : Child) (cs : List Child) :
    rRemove (i + 1) 1 (c :: cs) = c :: rRemove i 1 cs := by
  unfold rRemove
  rw [if_neg (by omega), if_neg (by omega)]
  have ht : (i + 1).toNat = i.toNat + 1 := by omega
  rw [ht]
  simp only [List.length_cons]
  rw [Nat.succ_min_succ, List.take_succ_cons, List.drop_succ_cons]
  rfl

theorem indexOfChild_nonneg {k : String} {l : List Child}
    (h : hasChild k l = true) : 0 ≤ indexOfChild k l := by
  unfold hasChild at h
  exact of_decide_eq_true h

/-- Removing at the index resolved for a present key deletes that key from
a duplicate-free collection. -/
theorem hasChild_rRemove_self {k : String} {l : List Child}
    (hnd : nodupKeys l) (h : hasChild k l = true) :
    hasChild k (rRemove (indexOfChild k l) 1 l) = false := by
  induction l with
  | nil => exact absurd h (by rw [hasChild_nil]; exact Bool.false_ne_true)
  | cons c cs ih =>
    rw [indexOfChild_cons]
    cases hck : c.key == k with
    | true =>
      rw [if_pos rfl, rRemove_zero]
      cases hx : hasChild k cs with
      | false => rfl
      | true =>
        have hk : c.key ∈ cs.map Child.key := by
          rw [beq_iff_eq.mp hck]
          exact (hasChild_iff_mem k cs).mp hx
        exact absurd hk (List.nodup_cons.mp hnd).1
    | false =>
      have hcs : hasChild k cs = true := by
        rw [hasChild_cons, hck, Bool.false_or] at h
        exact h
      have hr : 0 ≤ indexOfChild k cs := indexOfChild_nonneg hcs
      rw [if_neg Bool.false_ne_true, if_neg (by omega),
        rRemove_succ _ hr, hasChild_cons, hck, Bool.false_or]
      exact ih (List.nodup_cons.mp hnd).2 hcs

/-! ## Driver bookkeeping lemmas -/

theorem runKeys_nil
    (step : String → TransitionGroup → Option (TransitionGroup × List Ev))
    (s : TransitionGroup) : runKeys step [] s = some (s, []) := rfl

theorem runKeys_cons_some
    {step : String → TransitionGroup → Option (TransitionGroup × List Ev)}
    {k : String} {ks : List String} {s s' s'' : TransitionGroup}
    {tr tr' : List Ev}
    (h1 : step k s = some (s', tr)) (h2 : runKeys step ks s' = some (s'', tr')) :
    runKeys step (k :: ks) s = some (s'', tr ++ tr') := by
  simp [runKeys, h1, h2]

theorem runKeys_cons_elim
    {step : String → TransitionGroup → Option (TransitionGroup × List Ev)}
    {k : String} {ks : List String} {s : TransitionGroup}
    {p : TransitionGroup × List Ev}
    (h : runKeys step (k :: ks) s = some p) :
    ∃ s' tr tr', step k s = some (s', tr) ∧ runKeys step ks s' = some (p.1, tr')
      ∧ p.2 = tr ++ tr' := by
  unfold runKeys at h
  split at h
  · exact absurd h (by simp)
  case h_2 s' tr heq =>
    split at h
    · exact absurd h (by simp)
    case h_2 s'' tr' heq' =>
      cases h
      exact ⟨s', tr, tr', heq, heq', rfl⟩

theorem handleDoneEntering_trace {env : String → Component} {k : String}
    {s : TransitionGroup} {p : TransitionGroup × List Ev}
    (h : handleDoneEntering env k s = some p) : p.2 = [] := by
  unfold handleDoneEntering at h
  split at h
  · exact absurd h (by simp)
  · cases h; rfl

theorem handleDoneStaying_trace {env : String → Component} {k : String}
    {s : TransitionGroup} {p : TransitionGroup × List Ev}
    (h : handleDoneStaying env k s = some p) : p.2 = [] := by
  unfold handleDoneStaying at h
  split at h
  · exact absurd h (by simp)
  · cases h; rfl

theorem handleDoneLeaving_trace {env : String → Component} {k : String}
    {s : TransitionGroup} {p : TransitionGroup × List Ev}
    (h : handleDoneLeaving env k s = some p) : p.2 = [] := by
  unfold handleDoneLeaving at h
  split at h
  · exact absurd h (by simp)
  · cases h; rfl

theorem performEnter_trace {env : String → Component} {k : String}
    {s : TransitionGroup} {p : TransitionGroup × List Ev}
    (h : performEnter env k s = some p) : p.2 = [Ev.enter k] := by
  simp only [performEnter] at h
  split at h
  · exact absurd h (by simp)
  · split at h
    · cases h; rfl
    · rw [Option.map_eq_some'] at h
      obtain ⟨q, hq, he⟩ := h
      rw [← he]
      simp [handleDoneEntering_trace hq]

theorem performStay_trace {env : String → Component} {k : String}
    {s : TransitionGroup} {p : TransitionGroup × List Ev}
    (h : performStay env k s = some p) : p.2 = [Ev.stay k] := by
  simp only [performStay] at h
  split at h
  · exact absurd h (by simp)
  · split at h
    · cases h; rfl
    · rw [Option.map_eq_some'] at h
      obtain ⟨q, hq, he⟩ := h
      rw [← he]
      simp [handleDoneStaying_trace hq]

theorem performLeave_trace {env : String → Component} {k : String}
    {s : TransitionGroup} {p : TransitionGroup × List Ev}
    (h : performLeave env k s = some p) : p.2 = [Ev.leave k] := by
  simp only [performLeave] at h
  split at h
  · exact absurd h (by simp)
  · split at h
    · cases h; rfl
    · rw [Option.map_eq_some'] at h
      obtain ⟨q, hq, he⟩ := h
      rw [← he]
      simp [handleDoneLeaving_trace hq]

/-- A driver step that emits exactly one fixed event per key makes the run
over a key list emit exactly the mapped events. -/
theorem runKeys_trace
    {step : String → TransitionGroup → Option (TransitionGroup × List Ev)}
    {f : String → Ev}
    (hstep : ∀ k s p, step k s = some p → p.2 = [f k]) :
    ∀ (ks : List String) (s : TransitionGroup) (p : TransitionGroup × List Ev),
      runKeys step ks s = some p → p.2 = ks.map f := by
  intro ks
  induction ks with
  | nil =>
    intro s p h
    rw [runKeys_nil] at h
    cases h; rfl
  | cons k ks ih =>
    intro s p h
    obtain ⟨s', tr, tr', h1, h2, h3⟩ := runKeys_cons_elim h
    have ht : tr' = ks.map f := ih s' (p.1, tr') h2
    have h1' : tr = [f k] := hstep k s (s', tr) h1
    rw [h3, h1', ht]
    rfl

theorem sameQueues_refl (s : TransitionGroup) : sameQueues s s :=
  ⟨rfl, rfl, rfl⟩

theorem sameQueues_trans {s t u : TransitionGroup}
    (h1 : sameQueues s t) (h2 : sameQueues t u) : sameQueues s u :=
  ⟨h2.1.trans h1.1, h2.2.1.trans h1.2.1, h2.2.2.trans h1.2.2⟩

theorem setFlag_queues (k : String) (s : TransitionGroup) :
    sameQueues s (setFlag k s) := by
  unfold setFlag
  split
  · exact sameQueues_refl s
  · exact ⟨rfl, rfl, rfl⟩

theorem clearFlag_queues (k : String) (s : TransitionGroup) :
    sameQueues s (clearFlag k s) := ⟨rfl, rfl, rfl⟩

theorem handleDoneEntering_queues {env : String → Component} {k : String}
    {s : TransitionGroup} {p : TransitionGroup × List Ev}
    (h : handleDoneEntering env k s = some p) : sameQueues s p.1 := by
  unfold handleDoneEntering at h
  split at h
  · exact absurd h (by simp)
  · cases h; exact clearFlag_queues k s

theorem handleDoneStaying_queues {env : String → Component} {k : String}
    {s : TransitionGroup} {p : TransitionGroup × List Ev}
    (h : handleDoneStaying env k s = some p) : sameQueues s p.1 := by
  unfold handleDoneStaying at h
  split at h
  · exact absurd h (by simp)
  · cases h; exact sameQueues_refl s

theorem handleDoneLeaving_queues {env : String → Component} {k : String}
    {s : TransitionGroup} {p : TransitionGroup × List Ev}
    (h : handleDoneLeaving env k s = some p) : sameQueues s p.1 := by
  unfold handleDoneLeaving at h
  split at h
  · exact absurd h (by simp)
  · cases h
    exact sameQueues_trans (clearFlag_queues k s) ⟨rfl, rfl, rfl⟩

theorem performEnter_queues {env : String → Component} {k : String}
    {s : TransitionGroup} {p : TransitionGroup × List Ev}
    (h : performEnter env k s = some p) : sameQueues s p.1 := by
  simp only [performEnter] at h
  split at h
  · exact absurd h (by simp)
  · split at h
    · cases h; exact setFlag_queues k s
    · rw [Option.map_eq_some'] at h
      obtain ⟨q, hq, he⟩ := h
      have hsq := sameQueues_trans (setFlag_queues k s) (handleDoneEntering_queues hq)
      rw [← he]
      exact hsq

theorem performStay_queues {env : String → Component} {k : String}
    {s : TransitionGroup} {p : TransitionGroup × List Ev}
    (h : performStay env k s = some p) : sameQueues s p.1 := by
  simp only [performStay] at h
  split at h
  · exact absurd h (by simp)
  · split at h
    · cases h; exact sameQueues_refl s
    · rw [Option.map_eq_some'] at h
      obtain ⟨q, hq, he⟩ := h
      have hsq := handleDoneStaying_queues hq
      rw [← he]
      exact hsq

theorem performLeave_queues {env : String → Component} {k : String}
    {s : TransitionGroup} {p : TransitionGroup × List Ev}
    (h : performLeave env k s = some p) : sameQueues s p.1 := by
  simp only [performLeave] at h
  split at h
  · exact absurd h (by simp)
  · split at h
    · cases h; exact setFlag_queues k s
    · rw [Option.map_eq_some'] at h
      obtain ⟨q, hq, he⟩ := h
      have hsq := sameQueues_trans (setFlag_queues k s) (handleDoneLeaving_queues hq)
      rw [← he]
      exact hsq

theorem runKeys_queues
    {step : String → TransitionGroup → Option (TransitionGroup × List Ev)}
    (hstep : ∀ k s p, step k s = some p → sameQueues s p.1) :
    ∀ (ks : List String) (s : TransitionGroup) (p : TransitionGroup × List Ev),
      runKeys step ks s = some p → sameQueues s p.1 := by
  intro ks
  induction ks with
  | nil =>
    intro s p h
    rw [runKeys_nil] at h
    cases h; exact sameQueues_refl s
  | cons k ks ih =>
    intro s p h
    obtain ⟨s', tr, tr', h1, h2, _⟩ := runKeys_cons_elim h
    have hq2 : sameQueues s' p.1 := ih s' (p.1, tr') h2
    exact sameQueues_trans (hstep k s _ h1) hq2

/-! ## Claim C1 -/

/-- Claim C1 counterexample: merging a tracked child with a desired child of
the same key keeps the previously tracked payload, not the desired one —
`R.unionWith` keeps the first occurrence, and the tracked children come
first in the concatenation. This falsifies the claim that the resulting
entry carries the desired (next) payload. -/
theorem mergeChildren_tracked_payload_wins :
    mergeChildren [{ key := "a", payload := 0 }] [{ key := "a", payload := 1 }]
      = [{ key := "a", payload := 0 }] ∧
    mergeChildren [{ key := "a", payload := 0 }] [{ key := "a", payload := 1 }]
      ≠ [{ key := "a", payload := 1 }] := by
  decide

/-- Claim C1 (amended): for duplicate-free inputs, the diff/merge step
returns the union of tracked and desired children matching by key equality,
preserving the relative order of tracked children first and then appending
desired children whose keys are not already tracked; no key appears twice
in the result, and for a key present in both inputs the resulting entry
carries the previously tracked payload (the desired payload is discarded). -/
theorem mergeChildren_union_spec (tracked desired : List Child)
    (ht : nodupKeys tracked) (hd : nodupKeys desired) :
    mergeChildren tracked desired
      = tracked ++ desired.filter (fun d => !(hasChild d.key tracked)) ∧
    nodupKeys (mergeChildren tracked desired) :=
  ⟨mergeChildren_eq tracked desired ht hd, mergeChildren_nodup tracked desired ht hd⟩

theorem mergeChildren_union_spec_witness :
    nodupKeys [chA, chB] ∧ nodupKeys [chB7, chD] ∧
    (mergeChildren [chA, chB] [chB7, chD]
        = [chA, chB] ++ [chB7, chD].filter (fun d => !(hasChild d.key [chA, chB])) ∧
      nodupKeys (mergeChildren [chA, chB] [chB7, chD])) :=
  ⟨by decide, by decide, mergeChildren_union_spec _ _ (by decide) (by decide)⟩

/-! ## Claim C2 -/

/-- Claim C2: the capacity limiter drops nothing when the merged collection
fits the capacity; otherwise it splits off exactly the earliest
`merged.length - capacity` entries as dropped and keeps the remainder in
order; and after `componentWillReceiveProps` the tracked collection length
is at most the incoming capacity. -/
theorem limit_capacity_spec (merged : List Child) (cap : Nat)
    (nextChildren : List (Option Child)) (sz : Nat) (s : TransitionGroup) :
    (merged.length ≤ cap → limit merged cap = ([], merged)) ∧
    (cap < merged.length →
      limit merged cap
        = (merged.take (merged.length - cap), merged.drop (merged.length - cap)) ∧
      (limit merged cap).1.length = merged.length - cap) ∧
    (limit merged cap).2.length ≤ cap ∧
    (componentWillReceiveProps nextChildren sz s).children.length ≤ sz := by
  refine ⟨?_, ?_, limit_kept_length merged cap, ?_⟩
  · intro h
    unfold limit
    rw [if_neg (by omega)]
  · intro h
    exact ⟨by unfold limit; rw [if_pos h], limit_dropped_length merged cap h⟩
  · simp only [componentWillReceiveProps]
    exact limit_kept_length _ _

theorem limit_capacity_spec_witness :
    2 < ([chA, chB, chC] : List Child).length ∧
    limit [chA, chB, chC] 2 = ([chA], [chB, chC]) := by
  have h := (limit_capacity_spec [chA, chB, chC] 2 [] 2 (initialState [] 2)).2.1
    (by decide)
  refine ⟨by decide, ?_⟩
  rw [h.1]
  decide

/-! ## Flag-bookkeeping lemmas used by the completion-callback claims -/

theorem clearFlag_children (k : String) (s : TransitionGroup) :
    (clearFlag k s).children = s.children := rfl

theorem clearFlag_props (k : String) (s : TransitionGroup) :
    (clearFlag k s).propsChildren = s.propsChildren := rfl

theorem setFlag_children (k : String) (s : TransitionGroup) :
    (setFlag k s).children = s.children := by
  unfold setFlag
  split <;> rfl

theorem setFlag_props (k : String) (s : TransitionGroup) :
    (setFlag k s).propsChildren = s.propsChildren := by
  unfold setFlag
  split <;> rfl

theorem clearFlag_idem (k : String) (s : TransitionGroup) :
    clearFlag k (clearFlag k s) = clearFlag k s := by
  unfold clearFlag
  simp [List.filter_filter]

theorem refs_clearFlag (env : String → Component) (k' k : String)
    (s : TransitionGroup) : refs env (clearFlag k' s) k = refs env s k := rfl

/-! ## Claim C3 -/

/-- Claim C3 counterexample: fire the leave completion for key A once
(removing A from the tracked collection), then fire the same completion a
second time. The second invocation does not leave the coordinator state as
it was after the first: the string ref for A is gone, so the handler
faults on the property access (modelled by `none`) instead of returning
the post-first-invocation state unchanged. The first conjunct shows the
pre-completion state is reached from an initial state by the real update
functions. -/
theorem second_leave_completion_not_noop :
    (componentDidUpdate envWL (componentWillReceiveProps [some chB] 2
        (initialState [some chA, some chB] 2))).map Prod.fst
      = some sLeaveInFlight ∧
    handleDoneLeaving envWL "A" sLeaveInFlight = some (sLeaveDone, []) ∧
    handleDoneLeaving envWL "A" sLeaveDone = none ∧
    handleDoneLeaving envWL "A" sLeaveDone ≠ some (sLeaveDone, []) := by
  refine ⟨by decide, by decide, by decide, by decide⟩

/-- Claim C3 (amended): a second invocation of an enter or stay completion
callback — or of an appear completion whose key is still among the desired
children — leaves the coordinator state exactly as after the first
invocation; but a second leave completion for a key whose entry was
already removed faults on the missing child ref (a thrown TypeError,
modelled by `none`) rather than being a state-preserving no-op. -/
theorem completion_second_invocation (env : String → Component) (k : String)
    (s s' : TransitionGroup) (tr : List Ev) :
    (handleDoneEntering env k s = some (s', tr) →
      handleDoneEntering env k s' = some (s', [])) ∧
    (handleDoneStaying env k s = some (s', tr) →
      handleDoneStaying env k s' = some (s', [])) ∧
    (handleDoneAppearing env k s = some (s', tr) →
      hasChild k (mapChildren s.propsChildren) = true →
      handleDoneAppearing env k s' = some (s', [])) ∧
    (handleDoneLeaving env k s = some (s', tr) →
      hasChild k s'.children = false →
      handleDoneLeaving env k s' = none) := by
  refine ⟨?_, ?_, ?_, ?_⟩
  · intro h
    unfold handleDoneEntering at h ⊢
    split at h
    · exact absurd h (by simp)
    case h_2 c heq =>
      cases h
      rw [refs_clearFlag, heq, clearFlag_idem]
  · intro h
    unfold handleDoneStaying at h ⊢
    split at h
    · exact absurd h (by simp)
    case h_2 c heq =>
      cases h
      rw [heq]
  · intro h hprops
    simp only [handleDoneAppearing] at h ⊢
    split at h
    · exact absurd h (by simp)
    case h_2 c heq =>
      rw [clearFlag_props, if_pos hprops] at h
      cases h
      rw [refs_clearFlag, heq, clearFlag_idem, clearFlag_props, if_pos hprops]
  · intro h habs
    unfold handleDoneLeaving at h
    split at h
    · exact absurd h (by simp)
    case h_2 c heq =>
      cases h
      unfold handleDoneLeaving refs
      rw [show ({ clearFlag k s with
            children := rRemove (indexOfChild k (clearFlag k s).children) 1
              (clearFlag k s).children } : TransitionGroup).children
          = rRemove (indexOfChild k (clearFlag k s).children) 1
              (clearFlag k s).children from rfl] at habs ⊢
      rw [habs]
      simp

theorem completion_second_invocation_witness :
    handleDoneEntering envWEnt "A" sAFlagged = some (sAClear, []) ∧
    handleDoneEntering envWEnt "A" sAClear = some (sAClear, []) :=
  ⟨by decide,
    (completion_second_invocation envWEnt "A" sAFlagged sAClear []).1 (by decide)⟩

/-! ## Claim C4 -/

/-- Claim C4 (code bug): a completion callback arriving for a key that the
capacity limiter force-dropped is not a harmless no-op. Key A enters with
an asynchronous enter hook (flag set), then a subsequent update with
capacity 1 force-drops A (flag cleared, A no longer tracked); when A's
stale enter completion then fires, the handler's `this.refs[key]` lookup
yields `undefined` and the property access throws (modelled by `none`)
instead of leaving the state unchanged without error. -/
theorem dropped_key_completion_faults :
    (componentDidUpdate envWEnt (componentWillReceiveProps [some chA] 1
        (initialState [] 1))).map Prod.fst = some sDropPre ∧
    flagged sDropPre "A" = true ∧
    (componentDidUpdate envWEnt (componentWillReceiveProps [some chA, some chB] 1
        sDropPre)).map Prod.fst = some sDropPost ∧
    hasChild "A" sDropPost.children = false ∧
    flagged sDropPost "A" = false ∧
    handleDoneEntering envWEnt "A" sDropPost = none := by
  refine ⟨by decide, by decide, by decide, by decide, by decide, by decide⟩

/-! ## Claim C5 -/

/-- Claim C5: within one update cycle, `componentDidUpdate` issues all
enter-transition invocations in entering-queue order, then all
stay-transition invocations, then all leave-transition invocations. -/
theorem componentDidUpdate_ordering (env : String → Component)
    (s : TransitionGroup) (p : TransitionGroup × List Ev)
    (h : componentDidUpdate env s = some p) :
    p.2 = s.keysToEnter.map Ev.enter ++ s.keysToStay.map Ev.stay
      ++ s.keysToLeave.map Ev.leave := by
  simp only [componentDidUpdate] at h
  split at h
  · exact absurd h (by simp)
  case h_2 s2 tr1 heq1 =>
    split at h
    · exact absurd h (by simp)
    case h_2 s4 tr2 heq2 =>
      split at h
      · exact absurd h (by simp)
      case h_2 s6 tr3 heq3 =>
        cases h
        have he : tr1 = s.keysToEnter.map Ev.enter :=
          runKeys_trace (fun k s p h => performEnter_trace h) _ _ _ heq1
        have hq1 : sameQueues { s with keysToEnter := ([] : List String) } s2 :=
          runKeys_queues (fun k s p h => performEnter_queues h) _ _ _ heq1
        have hs2 : s2.keysToStay = s.keysToStay := hq1.2.1
        have hs : tr2 = s.keysToStay.map Ev.stay := by
          rw [← hs2]
          exact runKeys_trace (fun k s p h => performStay_trace h) _ _ _ heq2
        have hq2 : sameQueues { s2 with keysToStay := ([] : List String) } s4 :=
          runKeys_queues (fun k s p h => performStay_queues h) _ _ _ heq2
        have hs4 : s4.keysToLeave = s.keysToLeave := by
          have h1 : s4.keysToLeave = s2.keysToLeave := hq2.2.2
          have h2 : s2.keysToLeave = s.keysToLeave := hq1.2.2
          rw [h1, h2]
        have hl : tr3 = s.keysToLeave.map Ev.leave := by
          rw [← hs4]
          exact runKeys_trace (fun k s p h => performLeave_trace h) _ _ _ heq3
        rw [he, hs, hl]

theorem componentDidUpdate_ordering_witness :
    [Ev.enter "A", Ev.stay "B", Ev.leave "C"]
      = sQueued.keysToEnter.map Ev.enter ++ sQueued.keysToStay.map Ev.stay
        ++ sQueued.keysToLeave.map Ev.leave := by
  have h : componentDidUpdate envNone sQueued
      = some (sQueuedDone, [Ev.enter "A", Ev.stay "B", Ev.leave "C"]) := by decide
  exact componentDidUpdate_ordering envNone sQueued _ h

/-! ## Characterisation of the classification queues -/

theorem cWRP_keysToEnter (next : List (Option Child)) (sz : Nat)
    (s : TransitionGroup) :
    (componentWillReceiveProps next sz s).keysToEnter
      = s.keysToEnter ++
        ((((mapChildren next).filter (fun c => !(hasChild c.key
              (limit (mergeChildren s.children (mapChildren next)) sz).1))).filter
            (fun c => !(hasChild c.key s.children) || flagged s c.key)).map
          Child.key) := by
  simp only [componentWillReceiveProps, List.partition_eq_filter_filter]

theorem cWRP_keysToStay (next : List (Option Child)) (sz : Nat)
    (s : TransitionGroup) :
    (componentWillReceiveProps next sz s).keysToStay
      = s.keysToStay ++
        ((((mapChildren next).filter (fun c => !(hasChild c.key
              (limit (mergeChildren s.children (mapChildren next)) sz).1))).filter
            (fun c => !(!(hasChild c.key s.children) || flagged s c.key))).map
          Child.key) := by
  simp only [componentWillReceiveProps, List.partition_eq_filter_filter]
  rfl

theorem cWRP_keysToLeave (next : List (Option Child)) (sz : Nat)
    (s : TransitionGroup) :
    (componentWillReceiveProps next sz s).keysToLeave
      = s.keysToLeave ++
        ((s.children.filter (fun c => !(hasChild c.key
              (limit (mergeChildren s.children (mapChildren next)) sz).1)
            && !(hasChild c.key (mapChildren next)))).map Child.key) := by
  simp only [componentWillReceiveProps]

/-! ## Claim C6 -/

/-- Claim C6: after an update classification starting from drained queues,
no key is put into two of the entering/staying/leaving queues; and a key
re-supplied by the desired collection while its leave is still in flight
(its in-flight flag set) and not force-dropped is classified as entering
and not as leaving. -/
theorem at_most_one_classification (next : List (Option Child)) (sz : Nat)
    (s s' : TransitionGroup)
    (hE : s.keysToEnter = []) (hS : s.keysToStay = []) (hL : s.keysToLeave = [])
    (hs' : s' = componentWillReceiveProps next sz s) :
    (∀ k, ¬(k ∈ s'.keysToEnter ∧ k ∈ s'.keysToStay)) ∧
    (∀ k, ¬(k ∈ s'.keysToEnter ∧ k ∈ s'.keysToLeave)) ∧
    (∀ k, ¬(k ∈ s'.keysToStay ∧ k ∈ s'.keysToLeave)) ∧
    (∀ k, hasChild k (mapChildren next) = true → flagged s k = true →
      hasChild k (limit (mergeChildren s.children (mapChildren next)) sz).1
        = false →
      k ∈ s'.keysToEnter ∧ k ∉ s'.keysToLeave) := by
  subst hs'
  have hEq := cWRP_keysToEnter next sz s
  have hSq := cWRP_keysToStay next sz s
  have hLq := cWRP_keysToLeave next sz s
  rw [hE, List.nil_append] at hEq
  rw [hS, List.nil_append] at hSq
  rw [hL, List.nil_append] at hLq
  refine ⟨?_, ?_, ?_, ?_⟩
  · rintro k ⟨hk1, hk2⟩
    rw [hEq] at hk1
    rw [hSq] at hk2
    obtain ⟨c1, hc1, hkey1⟩ := List.mem_map.mp hk1
    obtain ⟨hc1f, hcond1⟩ := List.mem_filter.mp hc1
    obtain ⟨c2, hc2, hkey2⟩ := List.mem_map.mp hk2
    obtain ⟨hc2f, hcond2⟩ := List.mem_filter.mp hc2
    rw [hkey1] at hcond1
    rw [hkey2] at hcond2
    rw [hcond1] at hcond2
    simp at hcond2
  · rintro k ⟨hk1, hk2⟩
    rw [hEq] at hk1
    rw [hLq] at hk2
    obtain ⟨c1, hc1, hkey1⟩ := List.mem_map.mp hk1
    obtain ⟨hc1f, _⟩ := List.mem_filter.mp hc1
    obtain ⟨hc1n, _⟩ := List.mem_filter.mp hc1f
    have hnext : hasChild k (mapChildren next) = true :=
      hasChild_of_mem hc1n hkey1
    obtain ⟨c2, hc2, hkey2⟩ := List.mem_map.mp hk2
    obtain ⟨_, hcond2⟩ := List.mem_filter.mp hc2
    rw [hkey2, Bool.and_eq_true] at hcond2
    rw [hnext] at hcond2
    simp at hcond2
  · rintro k ⟨hk1, hk2⟩
    rw [hSq] at hk1
    rw [hLq] at hk2
    obtain ⟨c1, hc1, hkey1⟩ := List.mem_map.mp hk1
    obtain ⟨hc1f, _⟩ := List.mem_filter.mp hc1
    obtain ⟨hc1n, _⟩ := List.mem_filter.mp hc1f
    have hnext : hasChild k (mapChildren next) = true :=
      hasChild_of_mem hc1n hkey1
    obtain ⟨c2, hc2, hkey2⟩ := List.mem_map.mp hk2
    obtain ⟨_, hcond2⟩ := List.mem_filter.mp hc2
    rw [hkey2, Bool.and_eq_true] at hcond2
    rw [hnext] at hcond2
    simp at hcond2
  · intro k hnext hflag hndrop
    obtain ⟨c, hc, hkey⟩ :=
      List.mem_map.mp ((hasChild_iff_mem k (mapChildren next)).mp hnext)
    constructor
    · rw [hEq]
      refine List.mem_map.mpr ⟨c, ?_, hkey⟩
      refine List.mem_filter.mpr ⟨List.mem_filter.mpr ⟨hc, ?_⟩, ?_⟩
      · rw [hkey, hndrop]
        rfl
      · rw [hkey, hflag, Bool.or_true]
    · intro hmem
      rw [hLq] at hmem
      obtain ⟨c2, hc2, hkey2⟩ := List.mem_map.mp hmem
      obtain ⟨_, hcond2⟩ := List.mem_filter.mp hc2
      rw [hkey2, Bool.and_eq_true] at hcond2
      rw [hnext] at hcond2
      simp at hcond2

theorem at_most_one_classification_witness :
    "A" ∈ (componentWillReceiveProps [some chA] 2 sAFlagged).keysToEnter ∧
    "A" ∉ (componentWillReceiveProps [some chA] 2 sAFlagged).keysToLeave :=
  (at_most_one_classification [some chA] 2 sAFlagged _ rfl rfl rfl rfl).2.2.2
    "A" (by decide) (by decide) (by decide)

/-! ## Claim C7 -/

theorem flagged_setFlag_self (k : String) (s : TransitionGroup) :
    flagged (setFlag k s) k = true := by
  unfold setFlag
  split
  case isTrue h => exact h
  case isFalse h =>
    unfold flagged
    simp

/-- Claim C7: if a key's appear completion fires while the current desired
children no longer contain it, the driver immediately issues its leave
transition (the key is flagged in flight for leaving, not left staying);
and once that leave's completion fires, the key is removed from the
tracked collection. -/
theorem doneAppearing_absent_starts_leave (env : String → Component)
    (k : String) (s : TransitionGroup)
    (hmem : hasChild k s.children = true)
    (hnd : nodupKeys s.children)
    (habs : hasChild k (mapChildren s.propsChildren) = false)
    (hwL : (env k).willLeave = true) :
    ∃ s₁, handleDoneAppearing env k s = some (s₁, [Ev.leave k]) ∧
      flagged s₁ k = true ∧ s₁.children = s.children ∧
      ∃ s₂ tr, handleDoneLeaving env k s₁ = some (s₂, tr) ∧
        hasChild k s₂.children = false := by
  have hrefs : refs env s k = some (env k) := by
    unfold refs
    rw [hmem]
    simp
  have hrefs2 : refs env (setFlag k (clearFlag k s)) k = some (env k) := by
    unfold refs
    rw [setFlag_children, clearFlag_children, hmem]
    simp
  have hch1 : (clearFlag k (setFlag k (clearFlag k s))).children = s.children := by
    rw [clearFlag_children, setFlag_children, clearFlag_children]
  refine ⟨setFlag k (clearFlag k s), ?_, flagged_setFlag_self k (clearFlag k s),
    by rw [setFlag_children, clearFlag_children], ?_⟩
  · simp only [handleDoneAppearing]
    rw [hrefs, clearFlag_props,
      if_neg (by rw [habs]; exact Bool.false_ne_true)]
    simp only [performLeave]
    rw [hrefs2]
    simp [hwL]
  · refine ⟨{ clearFlag k (setFlag k (clearFlag k s)) with
      children := rRemove (indexOfChild k s.children) 1 s.children }, [], ?_, ?_⟩
    · simp only [handleDoneLeaving]
      rw [hrefs2, hch1]
    · exact hasChild_rRemove_self hnd hmem

theorem doneAppearing_absent_starts_leave_witness :
    hasChild "A" sAOrphan.children = true ∧ nodupKeys sAOrphan.children ∧
    hasChild "A" (mapChildren sAOrphan.propsChildren) = false ∧
    (envWL "A").willLeave = true ∧
    (∃ s₁, handleDoneAppearing envWL "A" sAOrphan = some (s₁, [Ev.leave "A"]) ∧
      flagged s₁ "A" = true ∧ s₁.children = sAOrphan.children ∧
      ∃ s₂ tr, handleDoneLeaving envWL "A" s₁ = some (s₂, tr) ∧
        hasChild "A" s₂.children = false) :=
  ⟨by decide, by decide, by decide, by decide,
    doneAppearing_absent_starts_leave envWL "A" sAOrphan (by decide) (by decide)
      (by decide) (by decide)⟩

/-! ## Claim C8 -/

/-- Claim C8: for each transition kind, when the child exposes no will-hook
for that kind, issuing that transition behaves exactly as if the completion
callback fired immediately and synchronously: the perform step equals
running the corresponding done-handler in the same step (after the
in-flight flag is set, for the kinds that set one), with the transition
invocation recorded in front of the handler's trace. -/
theorem hookless_transition_synchronous (env : String → Component)
    (k : String) (s : TransitionGroup) :
    ((env k).willAppear = false →
      performAppear env k s
        = (handleDoneAppearing env k (setFlag k s)).map
            (fun p => (p.1, Ev.appear k :: p.2))) ∧
    ((env k).willEnter = false →
      performEnter env k s
        = (handleDoneEntering env k (setFlag k s)).map
            (fun p => (p.1, Ev.enter k :: p.2))) ∧
    ((env k).willStay = false →
      performStay env k s
        = (handleDoneStaying env k s).map
            (fun p => (p.1, Ev.stay k :: p.2))) ∧
    ((env k).willLeave = false →
      performLeave env k s
        = (handleDoneLeaving env k (setFlag k s)).map
            (fun p => (p.1, Ev.leave k :: p.2))) := by
  refine ⟨?_, ?_, ?_, ?_⟩
  · intro h
    cases hx : hasChild k (setFlag k s).children with
    | false =>
      have hr : refs env (setFlag k s) k = none := by
        unfold refs
        rw [hx]
        simp
      simp [performAppear, handleDoneAppearing, hr]
    | true =>
      have hr : refs env (setFlag k s) k = some (env k) := by
        unfold refs
        rw [hx]
        simp
      simp only [performAppear]
      simp [hr, h]
  · intro h
    cases hx : hasChild k (setFlag k s).children with
    | false =>
      have hr : refs env (setFlag k s) k = none := by
        unfold refs
        rw [hx]
        simp
      simp [performEnter, handleDoneEntering, hr]
    | true =>
      have hr : refs env (setFlag k s) k = some (env k) := by
        unfold refs
        rw [hx]
        simp
      simp only [performEnter]
      simp [hr, h]
  · intro h
    cases hx : hasChild k s.children with
    | false =>
      have hr : refs env s k = none := by
        unfold refs
        rw [hx]
        simp
      simp [performStay, handleDoneStaying, hr]
    | true =>
      have hr : refs env s k = some (env k) := by
        unfold refs
        rw [hx]
        simp
      simp only [performStay]
      simp [hr, h]
  · intro h
    cases hx : hasChild k (setFlag k s).children with
    | false =>
      have hr : refs env (setFlag k s) k = none := by
        unfold refs
        rw [hx]
        simp
      simp [performLeave, handleDoneLeaving, hr]
    | true =>
      have hr : refs env (setFlag k s) k = some (env k) := by
        unfold refs
        rw [hx]
        simp
      simp only [performLeave]
      simp [hr, h]

theorem hookless_transition_synchronous_witness :
    (envNone "A").willEnter = false ∧
    performEnter envNone "A" sAClear
      = (handleDoneEntering envNone "A" (setFlag "A" sAClear)).map
          (fun p => (p.1, Ev.enter "A" :: p.2)) :=
  ⟨by decide,
    (hookless_transition_synchronous envNone "A" sAClear).2.1 (by decide)⟩

/-! ## Lemmas for the identical-update and initial-mount claims -/

theorem tgExt {a b : TransitionGroup}
    (h1 : a.children = b.children)
    (h2 : a.currentlyTransitioningKeys = b.currentlyTransitioningKeys)
    (h3 : a.keysToEnter = b.keysToEnter)
    (h4 : a.keysToLeave = b.keysToLeave)
    (h5 : a.keysToStay = b.keysToStay)
    (h6 : a.propsChildren = b.propsChildren)
    (h7 : a.size = b.size) : a = b := by
  cases a
  cases b
  simp only at h1 h2 h3 h4 h5 h6 h7
  subst h1 h2 h3 h4 h5 h6 h7
  rfl

theorem mapChildren_map_some (l : List Child) :
    mapChildren (l.map some) = l := by
  simp [mapChildren]

theorem performStay_id (env : String → Component) (k : String)
    (s : TransitionGroup) (h : hasChild k s.children = true) :
    performStay env k s = some (s, [Ev.stay k]) := by
  have hr : refs env s k = some (env k) := by
    unfold refs
    rw [h]
    simp
  cases hw : (env k).willStay with
  | true => simp [performStay, hr, hw]
  | false => simp [performStay, handleDoneStaying, hr, hw]

theorem runKeys_performStay_id (env : String → Component) :
    ∀ (ks : List String) (s : TransitionGroup),
      (∀ k ∈ ks, hasChild k s.children = true) →
      runKeys (performStay env) ks s = some (s, ks.map Ev.stay) := by
  intro ks
  induction ks with
  | nil => intro s _; rfl
  | cons k ks ih =>
    intro s hmem
    have h1 := performStay_id env k s (hmem k (List.mem_cons_self k ks))
    have h2 := ih s (fun k2 hk2 => hmem k2 (List.mem_cons_of_mem _ hk2))
    rw [runKeys_cons_some h1 h2]
    rfl

/-- `componentWillReceiveProps` with the currently tracked children
re-supplied unchanged: every child is classified as staying and nothing
else about the state changes. -/
theorem cWRP_identical (s : TransitionGroup)
    (hE : s.keysToEnter = []) (hS : s.keysToStay = []) (hL : s.keysToLeave = [])
    (hT : s.currentlyTransitioningKeys = [])
    (hlen : s.children.length ≤ s.size)
    (hnd : nodupKeys s.children) :
    componentWillReceiveProps (s.children.map some) s.size s
      = { s with
          keysToStay := s.children.map Child.key
          propsChildren := s.children.map some } := by
  have hmap : mapChildren (s.children.map some) = s.children :=
    mapChildren_map_some s.children
  have hmerge : mergeChildren s.children s.children = s.children := by
    rw [mergeChildren_eq s.children s.children hnd hnd]
    have hfil : s.children.filter (fun d => !(hasChild d.key s.children)) = [] := by
      rw [List.filter_eq_nil_iff]
      intro c hc
      rw [hasChild_of_mem hc rfl]
      simp
    rw [hfil, List.append_nil]
  have hlimit : limit s.children s.size = ([], s.children) := by
    unfold limit
    rw [if_neg (by omega)]
  have hstay : ∀ c ∈ s.children,
      (!(hasChild c.key ([] : List Child))
        && !(!(hasChild c.key s.children) || flagged s c.key)) = true := by
    intro c hc
    rw [hasChild_nil, hasChild_of_mem hc rfl]
    unfold flagged
    rw [hT]
    simp
  apply tgExt
  · simp only [componentWillReceiveProps, hmap, hmerge, hlimit]
  · simp only [componentWillReceiveProps, hmap, hmerge, hlimit]
    rw [hT]
    rfl
  · simp only [componentWillReceiveProps, hmap, hmerge, hlimit,
      List.partition_eq_filter_filter]
    rw [hE]
    show List.map Child.key (List.filter _ (List.filter _ s.children)) = []
    rw [show (List.filter (fun c => !(hasChild c.key ([] : List Child)))
        s.children) = s.children from by
      apply List.filter_eq_self.mpr
      intro c _
      rw [hasChild_nil]
      rfl]
    rw [show (List.filter (fun c => !(hasChild c.key s.children)
        || flagged s c.key) s.children) = [] from by
      rw [List.filter_eq_nil_iff]
      intro c hc
      rw [hasChild_of_mem hc rfl]
      unfold flagged
      rw [hT]
      simp]
    rfl
  · simp only [componentWillReceiveProps, hmap, hmerge, hlimit]
    rw [hL]
    show List.map Child.key (List.filter _ s.children) = []
    rw [show (List.filter (fun c => !(hasChild c.key ([] : List Child))
        && !(hasChild c.key s.children)) s.children) = [] from by
      rw [List.filter_eq_nil_iff]
      intro c hc
      rw [hasChild_of_mem hc rfl]
      simp]
    rfl
  · simp only [componentWillReceiveProps, hmap, hmerge, hlimit,
      List.partition_eq_filter_filter]
    rw [hS]
    show List.map Child.key (List.filter _ (List.filter _ s.children))
      = s.children.map Child.key
    rw [show (List.filter (fun c => !(hasChild c.key ([] : List Child)))
        s.children) = s.children from by
      apply List.filter_eq_self.mpr
      intro c _
      rw [hasChild_nil]
      rfl]
    rw [show (List.filter (not ∘ fun c => !(hasChild c.key s.children)
        || flagged s c.key) s.children) = s.children from by
      apply List.filter_eq_self.mpr
      intro c hc
      show (not ((!(hasChild c.key s.children)) || flagged s c.key)) = true
      rw [hasChild_of_mem hc rfl]
      unfold flagged
      rw [hT]
      simp]
  · simp only [componentWillReceiveProps]
  · simp only [componentWillReceiveProps]

/-- `componentDidUpdate` on a state with no entering and no leaving keys:
every queued stay is issued, the state is unchanged apart from the drained
queues. -/
theorem componentDidUpdate_stays_only (env : String → Component)
    (s : TransitionGroup)
    (hE : s.keysToEnter = []) (hL : s.keysToLeave = [])
    (hmem : ∀ k ∈ s.keysToStay, hasChild k s.children = true) :
    componentDidUpdate env s
      = some ({ s with
            keysToEnter := []
            keysToStay := []
            keysToLeave := [] },
          s.keysToStay.map Ev.stay) := by
  have hmem3 : ∀ k ∈ s.keysToStay,
      hasChild k (({ s with
        keysToEnter := ([] : List String)
        keysToLeave := ([] : List String)
        keysToStay := ([] : List String) } : TransitionGroup).children)
        = true := hmem
  have hstays := runKeys_performStay_id env s.keysToStay
    { s with
      keysToEnter := ([] : List String)
      keysToLeave := ([] : List String)
      keysToStay := ([] : List String) } hmem3
  simp only [componentDidUpdate, hE, hL, runKeys_nil, hstays, List.nil_append,
    List.append_nil]

/-! ## Claim C9 -/

/-- Claim C9 counterexample: re-supplying the identical desired collection
is not idempotent when a tracked key is still in flight. A enters with an
asynchronous enter hook (reached from an initial state by the real update
functions), and then the unchanged collection `[A]` is supplied again: A
is classified as entering once more (spurious enter transition), because
the classification re-enters any currently transitioning key. -/
theorem identical_update_spurious_enter :
    (componentDidUpdate envWEnt (componentWillReceiveProps [some chA] 2
        (initialState [] 2))).map Prod.fst = some sAFlagged ∧
    sAFlagged.children = [chA] ∧
    sAFlagged.propsChildren = [some chA] ∧
    (componentWillReceiveProps [some chA] 2 sAFlagged).keysToEnter = ["A"] := by
  refine ⟨by decide, by decide, by decide, by decide⟩

/-- Claim C9 (amended): supplying a desired collection identical to the
tracked one is idempotent provided no tracked key is currently in flight
and the tracked collection fits the capacity: no key is classified as
entering or leaving, and the full update cycle returns the state unchanged
while issuing exactly one stay transition per tracked child. (If a key is
still in flight it is re-classified as entering, and a tracked collection
exceeding the capacity — possible only straight after the initial mount —
gets trimmed.) -/
theorem identical_children_idempotent (env : String → Component)
    (s : TransitionGroup)
    (hE : s.keysToEnter = []) (hS : s.keysToStay = []) (hL : s.keysToLeave = [])
    (hT : s.currentlyTransitioningKeys = [])
    (hlen : s.children.length ≤ s.size)
    (hnd : nodupKeys s.children)
    (hp : s.propsChildren = s.children.map some) :
    (componentWillReceiveProps (s.children.map some) s.size s).keysToEnter = [] ∧
    (componentWillReceiveProps (s.children.map some) s.size s).keysToLeave = [] ∧
    updateCycle env (s.children.map some) s.size s
      = some (s, s.children.map (fun c => Ev.stay c.key)) := by
  have hw := cWRP_identical s hE hS hL hT hlen hnd
  refine ⟨?_, ?_, ?_⟩
  · rw [hw]
    exact hE
  · rw [hw]
    exact hL
  · unfold updateCycle
    rw [hw]
    have hdu := componentDidUpdate_stays_only env
      { s with
        keysToStay := s.children.map Child.key
        propsChildren := s.children.map some }
      hE hL
      (by
        intro k hk
        obtain ⟨c, hc, hck⟩ := List.mem_map.mp hk
        exact hasChild_of_mem hc hck)
    rw [hdu]
    refine congrArg some (Prod.ext ?_ ?_)
    · exact tgExt rfl rfl hE.symm hL.symm hS.symm hp.symm rfl
    · show List.map Ev.stay (List.map Child.key s.children) = _
      rw [List.map_map]
      rfl

theorem identical_children_idempotent_witness :
    sAClear.keysToEnter = [] ∧ sAClear.currentlyTransitioningKeys = [] ∧
    sAClear.children.length ≤ sAClear.size ∧ nodupKeys sAClear.children ∧
    sAClear.propsChildren = sAClear.children.map some ∧
    updateCycle envNone (sAClear.children.map some) sAClear.size sAClear
      = some (sAClear, sAClear.children.map (fun c => Ev.stay c.key)) :=
  ⟨rfl, rfl, by decide, by decide, by decide,
    (identical_children_idempotent envNone sAClear rfl rfl rfl rfl (by decide)
      (by decide) (by decide)).2.2⟩

/-! ## Claim C10 -/

theorem performAppear_present (env : String → Component) (k : String)
    (s : TransitionGroup)
    (hk : hasChild k s.children = true)
    (hp : hasChild k (mapChildren s.propsChildren) = true) :
    ∃ s', performAppear env k s = some (s', [Ev.appear k]) ∧
      s'.children = s.children ∧ s'.propsChildren = s.propsChildren := by
  have hr : refs env (setFlag k s) k = some (env k) := by
    unfold refs
    rw [setFlag_children, hk]
    simp
  cases hw : (env k).willAppear with
  | true =>
    refine ⟨setFlag k s, ?_, setFlag_children k s, setFlag_props k s⟩
    simp [performAppear, hr, hw]
  | false =>
    refine ⟨clearFlag k (setFlag k s), ?_,
      by rw [clearFlag_children, setFlag_children],
      by rw [clearFlag_props, setFlag_props]⟩
    simp [performAppear, handleDoneAppearing, hr, hw, clearFlag_props,
      setFlag_props, hp]

theorem runKeys_performAppear (env : String → Component) (C : List Child)
    (P : List (Option Child)) (hCP : mapChildren P = C) :
    ∀ (ks : List String) (s : TransitionGroup),
      s.children = C → s.propsChildren = P →
      (∀ k ∈ ks, hasChild k C = true) →
      ∃ s', runKeys (performAppear env) ks s = some (s', ks.map Ev.appear) ∧
        s'.children = C ∧ s'.propsChildren = P := by
  intro ks
  induction ks with
  | nil =>
    intro s h1 h2 _
    exact ⟨s, rfl, h1, h2⟩
  | cons k ks ih =>
    intro s h1 h2 hmem
    have hk : hasChild k s.children = true := by
      rw [h1]
      exact hmem k (List.mem_cons_self k ks)
    have hpk : hasChild k (mapChildren s.propsChildren) = true := by
      rw [h2, hCP]
      exact hmem k (List.mem_cons_self k ks)
    obtain ⟨s1, hs1, hc1, hp1⟩ := performAppear_present env k s hk hpk
    obtain ⟨s', hs', hc', hp'⟩ := ih s1 (hc1.trans h1) (hp1.trans h2)
      (fun k2 hk2 => hmem k2 (List.mem_cons_of_mem _ hk2))
    refine ⟨s', ?_, hc', hp'⟩
    rw [runKeys_cons_some hs1 hs']
    rfl

/-- Claim C10: at construction the tracked collection is exactly the
initially supplied desired children with null entries filtered out, in
order, for every capacity value — no capacity limiting is applied, so an
initial collection longer than the configured size is tracked in full —
and `componentDidMount` issues one appear transition per initially tracked
key, in order, leaving the tracked collection intact. -/
theorem initial_mount_full (env : String → Component)
    (pc : List (Option Child)) (sz : Nat) :
    (initialState pc sz).children = mapChildren pc ∧
    ∃ s', componentDidMount env (initialState pc sz)
        = some (s', ((mapChildren pc).map Child.key).map Ev.appear) ∧
      s'.children = mapChildren pc := by
  refine ⟨rfl, ?_⟩
  have h := runKeys_performAppear env (mapChildren pc) pc rfl
    ((initialState pc sz).children.map Child.key) (initialState pc sz) rfl rfl
    (by
      intro k hk
      obtain ⟨c, hc, hck⟩ := List.mem_map.mp hk
      exact hasChild_of_mem hc hck)
  obtain ⟨s', hs', hc', _⟩ := h
  exact ⟨s', hs', hc'⟩

end Enact
